import Mathlib

/-!
Shallow embedding of the Resume Analyzer skill-detection core
(`src/server/index.js`) and verification of its specification.

Strings are modelled as `List Char`.  JavaScript's `Number` values appear
here only in integer/rational positions and are modelled exactly
(`Nat`/`Int`/`ℚ`).  The `while`-loop of `findSkillOccurrences` is modelled
with an explicit fuel parameter; a result of `none` means the loop ran
longer than the given fuel.  The top-level wrappers supply fuel
`content.length + 1`, which is enough for every terminating execution of
the source loop, so `none` at those wrappers means the JavaScript loop
does not terminate.
-/

namespace ResumeAnalyzer

/-- JavaScript `s.toLowerCase()` (per-character model). -/
def toLowerStr (s : List Char) : List Char := s.map Char.toLower

/-- Upward scan for `findFrom`, structurally recursive on a fuel bound on
the number of remaining candidate positions. -/
def findFromFuel (s pat : List Char) : Nat → Nat → Option Nat
  | 0, _ => none
  | fuel + 1, i =>
    if i + pat.length ≤ s.length then
      if pat.isPrefixOf (s.drop i) then some i else findFromFuel s pat fuel (i + 1)
    else none

/-- First index `i' ≥ i` at which `pat` occurs inside `s`, scanning upward;
`none` when there is no occurrence at or after `i`.  Helper for `jsIndexOf`.
The fuel `s.length + 1 - i` covers every candidate position, so it is never
exhausted before the scan ends of its own accord. -/
def findFrom (s pat : List Char) (i : Nat) : Option Nat :=
  findFromFuel s pat (s.length + 1 - i) i

/-- JavaScript `s.indexOf(pat, start)`: the start position is clamped into
`[0, s.length]`; the result is the first occurrence position, or `none`
standing for JavaScript's `-1`.  Note that for `pat = []` (the empty
string) this always succeeds, returning the clamped start position. -/
def jsIndexOf (s pat : List Char) (start : Nat) : Option Nat :=
  findFrom s pat (min start s.length)

/-- One line of the extracted document (`extractTextWithLineNumbers`). -/
structure LineRecord where
  lineNumber : Nat
  content : List Char
  estimatedPage : Nat
deriving DecidableEq, Repr

/-- The structured text model returned by `extractTextWithLineNumbers`. -/
structure StructuredText where
  fullText : List Char
  lines : List LineRecord
  totalLines : Nat
  estimatedPages : Nat
deriving DecidableEq, Repr

/-- One element of the `occurrences` array built by `findSkillOccurrences`. -/
structure Occurrence where
  lineNumber : Nat
  estimatedPage : Nat
  context : List Char
deriving DecidableEq, Repr

/-- The `while ((startIndex = lineContentLower.indexOf(skillLower, startIndex)) !== -1)`
loop of `findSkillOccurrences` (src/server/index.js lines 57-69), for one line.
`fuel` bounds the number of iterations; `none` means the loop was still
running when the fuel ran out.  `startIndex` and `acc` are the loop state. -/
def scanLineLoop (content : List Char) (lineNumber estimatedPage : Nat)
    (skillLower : List Char) : Nat → Nat → List Occurrence → Option (List Occurrence)
  | 0, _, _ => none
  | fuel + 1, startIndex, acc =>
    match jsIndexOf (toLowerStr content) skillLower startIndex with
    | none => some acc
    | some p =>
      let contextStart := p - 30
      let contextEnd := min content.length (p + skillLower.length + 30)
      let context := (content.drop contextStart).take (contextEnd - contextStart)
      scanLineLoop content lineNumber estimatedPage skillLower fuel
        (p + skillLower.length)
        (acc ++ [{ lineNumber := lineNumber, estimatedPage := estimatedPage,
                   context := context }])

/-- The occurrence record pushed by the loop for a match at position `p`. -/
def mkOcc (content skillLower : List Char) (lineNumber estimatedPage : Nat)
    (p : Nat) : Occurrence :=
  { lineNumber := lineNumber, estimatedPage := estimatedPage,
    context := (content.drop (p - 30)).take
      (min content.length (p + skillLower.length + 30) - (p - 30)) }

/-- Instrumented variant of `scanLineLoop` that records the match positions
instead of the occurrence records; used to state ordering/overlap facts. -/
def scanLinePos (content skillLower : List Char) : Nat → Nat → Option (List Nat)
  | 0, _ => none
  | fuel + 1, startIndex =>
    match jsIndexOf (toLowerStr content) skillLower startIndex with
    | none => some []
    | some p =>
      match scanLinePos content skillLower fuel (p + skillLower.length) with
      | none => none
      | some ps => some (p :: ps)

/-- The `textData.lines.forEach(...)` accumulation of `findSkillOccurrences`:
occurrences are collected line by line, in line order.  Fuel
`line.content.length + 1` suffices for every terminating run of the
source's inner loop. -/
def findLines (skillLower : List Char) : List LineRecord → Option (List Occurrence)
  | [] => some []
  | line :: rest =>
    match scanLineLoop line.content line.lineNumber line.estimatedPage skillLower
        (line.content.length + 1) 0 [] with
    | none => none
    | some occs =>
      match findLines skillLower rest with
      | none => none
      | some more => some (occs ++ more)

/-- `findSkillOccurrences(textData, skill)` (src/server/index.js lines 49-73).
`none` models non-termination of the source's scanning loop. -/
def findSkillOccurrences (textData : StructuredText) (skill : List Char) :
    Option (List Occurrence) :=
  findLines (toLowerStr skill) textData.lines

/-- JavaScript `s.split(sep)` for a single-character separator: always
returns at least one element; empty segments are preserved. -/
def splitOnChar (sep : Char) : List Char → List (List Char)
  | [] => [[]]
  | c :: cs =>
    if c = sep then [] :: splitOnChar sep cs
    else
      match splitOnChar sep cs with
      | [] => [[c]]
      | seg :: segs => (c :: seg) :: segs

/-- JavaScript `s.trim()` (whitespace model: space, tab, CR, LF). -/
def trimStr (s : List Char) : List Char :=
  ((s.dropWhile Char.isWhitespace).reverse.dropWhile Char.isWhitespace).reverse

/-- `requiredSkills.split(',').map(s => s.trim())` (src/server/index.js line 77). -/
def splitTrim (requiredSkills : List Char) : List (List Char) :=
  (splitOnChar ',' requiredSkills).map trimStr

/-- The pure part of `extractTextWithLineNumbers` (src/server/index.js lines
27-42): structuring the pdf-rendered `fullText` into trimmed, numbered,
page-estimated lines with `linesPerPage = 50`.  The `pdf(buffer)` call
itself is an external library and is modelled by passing its output
`fullText` directly. -/
def mkStructuredText (fullText : List Char) : StructuredText :=
  let lines := splitOnChar '\n' fullText
  { fullText := fullText
    lines := lines.enum.map fun iv =>
      { lineNumber := iv.1 + 1
        content := trimStr iv.2
        estimatedPage := (iv.1 + 1 + 49) / 50 }
    totalLines := lines.length
    estimatedPages := (lines.length + 49) / 50 }

/-- One element of the `matched` array of `analyzeSkills`. -/
structure SkillMatch where
  skill : List Char
  occurrences : List Occurrence
  totalOccurrences : Nat
deriving DecidableEq, Repr

/-- One element of the `results` array of `analyzeSkills`. -/
structure ResumeResult where
  fileName : List Char
  eligible : Bool
  matchPercentage : ℤ
  matched : List SkillMatch
  missing : List (List Char)
  summary : List Char
  totalLines : Nat
  estimatedPages : Nat
deriving DecidableEq, Repr

/-- JavaScript `Math.round(x)` on a non-negative exact value: round half up. -/
def jsRound (x : ℚ) : ℤ := ⌊x + 1 / 2⌋

/-- The `skillsArray.forEach(...)` loop of `analyzeSkills` (src/server/index.js
lines 83-95): each skill goes to `matched` (when occurrences are found) or to
`missing`, in skill order.  `none` propagates non-termination of the Locator. -/
def collectMatches (textData : StructuredText) :
    List (List Char) → Option (List SkillMatch × List (List Char))
  | [] => some ([], [])
  | skill :: rest =>
    match findSkillOccurrences textData skill with
    | none => none
    | some occurrences =>
      match collectMatches textData rest with
      | none => none
      | some (matched, missing) =>
        if occurrences.length > 0 then
          some ({ skill := skill, occurrences := occurrences,
                  totalOccurrences := occurrences.length } :: matched, missing)
        else
          some (matched, skill :: missing)

/-- The default file name `Resume ${index + 1}` used when
`fileNames[index]` is absent or empty (a JavaScript falsy string). -/
def defaultFileName (index : Nat) : List Char :=
  "Resume ".data ++ (Nat.repr (index + 1)).data

/-- The `Found ${matched.length}/${skillsArray.length} required skills`
summary string. -/
def summaryStr (matchedLen skillCount : Nat) : List Char :=
  "Found ".data ++ (Nat.repr matchedLen).data ++ "/".data ++
    (Nat.repr skillCount).data ++ " required skills".data

/-- The body of the `resumeTexts.map((textData, index) => ...)` callback of
`analyzeSkills` (src/server/index.js lines 79-109) for one resume.
`name` is `fileNames[index]`, with JavaScript `undefined` (index out of
range) and the empty string both modelled as `[]`, which is exactly how
`fileNames[index] || default` treats them. -/
def scoreOne (skillsArray : List (List Char)) (textData : StructuredText)
    (index : Nat) (name : List Char) : Option ResumeResult :=
  match collectMatches textData skillsArray with
  | none => none
  | some (matched, missing) =>
    let matchPercentage : ℤ :=
      jsRound (((matched.length : ℚ) / (skillsArray.length : ℚ)) * 100)
    some
      { fileName := if name = [] then defaultFileName index else name
        eligible := decide ((60 : ℤ) ≤ matchPercentage)
        matchPercentage := matchPercentage
        matched := matched
        missing := missing
        summary := summaryStr matched.length skillsArray.length
        totalLines := textData.totalLines
        estimatedPages := textData.estimatedPages }

/-- Index-aware `map` threading the non-termination option. -/
def mapIdxOption (f : Nat → α → Option β) : Nat → List α → Option (List β)
  | _, [] => some []
  | i, a :: as =>
    match f i a with
    | none => none
    | some b =>
      match mapIdxOption f (i + 1) as with
      | none => none
      | some bs => some (b :: bs)

/-- `analyzeSkills(resumeTexts, requiredSkills, fileNames)`
(src/server/index.js lines 76-113). -/
def analyzeSkills (resumeTexts : List StructuredText) (requiredSkills : List Char)
    (fileNames : List (List Char)) : Option (List ResumeResult) :=
  let skillsArray := splitTrim requiredSkills
  mapIdxOption
    (fun index textData => scoreOne skillsArray textData index (fileNames.getD index []))
    0 resumeTexts

/-- A JavaScript value as it can appear in the fields read off the judge's
parsed JSON reply: `undef` models `undefined` (a missing property). -/
inductive JsValue where
  | undef : JsValue
  | bool (b : Bool) : JsValue
  | num (q : ℚ) : JsValue
  | str (s : List Char) : JsValue
deriving DecidableEq, Repr

/-- The three property reads `aiResult.overall_score`, `aiResult.eligible`,
`aiResult.summary` performed on the judge's parsed reply
(src/server/index.js lines 149-151).  A property that is missing from the
parsed JSON, or of an unexpected shape, is still a `JsValue` (possibly
`undef`): `JSON.parse` succeeding does not validate the fields. -/
structure JudgeParsed where
  overall_score : JsValue
  eligible : JsValue
  summary : JsValue
deriving DecidableEq, Repr

/-- A `ResumeResult` as produced by the enhanced path: the three fields
overwritten from the judge's reply hold raw JavaScript values (possibly
`undefined`). -/
structure ResumeResultJS where
  fileName : List Char
  eligible : JsValue
  matchPercentage : JsValue
  matched : List SkillMatch
  missing : List (List Char)
  summary : JsValue
  totalLines : Nat
  estimatedPages : Nat
deriving DecidableEq, Repr

/-- A deterministic `ResumeResult` seen as a JavaScript object (the identity
in the source, where both paths build untyped objects). -/
def ResumeResult.toJS (r : ResumeResult) : ResumeResultJS :=
  { fileName := r.fileName
    eligible := JsValue.bool r.eligible
    matchPercentage := JsValue.num (r.matchPercentage : ℚ)
    matched := r.matched
    missing := r.missing
    summary := JsValue.str r.summary
    totalLines := r.totalLines
    estimatedPages := r.estimatedPages }

/-- The spread `{...basicResult, matchPercentage: aiResult.overall_score,
eligible: aiResult.eligible, summary: aiResult.summary}`
(src/server/index.js lines 147-152). -/
def overwriteJudge (basic : ResumeResult) (aiResult : JudgeParsed) : ResumeResultJS :=
  { basic.toJS with
    matchPercentage := aiResult.overall_score
    eligible := aiResult.eligible
    summary := aiResult.summary }

/-- The `for (let i = 0; ...)` loop of `analyzeSkillsWithAI`
(src/server/index.js lines 125-160).  `judge i` models the whole
`generateContent` / `response.text()` / `JSON.parse` sequence for resume
`i`: `none` means some step of it threw (network failure or unparsable
reply), which the source catches per resume; `some jp` means the reply
parsed, with `jp` holding the three property reads (missing fields are
`JsValue.undef`).  The pacing `setTimeout` has no observable effect and is
dropped.  `none` overall models non-termination of `analyzeSkills`. -/
def aiLoop (judge : Nat → Option JudgeParsed) (requiredSkills : List Char)
    (fileNames : List (List Char)) : Nat → List StructuredText →
    Option (List ResumeResultJS)
  | _, [] => some []
  | i, textData :: rest =>
    match analyzeSkills [textData] requiredSkills [fileNames.getD i []] with
    | none => none
    | some [] => none
    | some (basicResult :: _) =>
      let r : ResumeResultJS :=
        match judge i with
        | some aiResult => overwriteJudge basicResult aiResult
        | none => basicResult.toJS
      match aiLoop judge requiredSkills fileNames (i + 1) rest with
      | none => none
      | some rs => some (r :: rs)

/-- `analyzeSkillsWithAI(resumeTexts, requiredSkills, fileNames)`
(src/server/index.js lines 116-168).  `genAI` is whether a judge client
was configured at startup (`GOOGLE_API_KEY` present); when it is `false`
the batch bypasses the judge entirely.  (The `some [] => none` branch of
`aiLoop` is unreachable: `analyzeSkills` on a one-element list never
returns an empty list.) -/
def analyzeSkillsWithAI (genAI : Bool) (judge : Nat → Option JudgeParsed)
    (resumeTexts : List StructuredText) (requiredSkills : List Char)
    (fileNames : List (List Char)) : Option (List ResumeResultJS) :=
  if genAI then aiLoop judge requiredSkills fileNames 0 resumeTexts
  else (analyzeSkills resumeTexts requiredSkills fileNames).map
    (List.map ResumeResult.toJS)

/-- Specification-level description of the enhanced path: the deterministic
results with, per resume, the judge's parsed reply spread on top when the
judge call succeeded, and the untouched deterministic result when it threw. -/
def applyJudge (judge : Nat → Option JudgeParsed) :
    Nat → List ResumeResult → List ResumeResultJS
  | _, [] => []
  | i, d :: rest =>
    (match judge i with
     | some aiResult => overwriteJudge d aiResult
     | none => d.toJS) :: applyJudge judge (i + 1) rest

/-- JavaScript truthiness of the values that can sit in a result field. -/
def JsValue.truthy : JsValue → Bool
  | JsValue.undef => false
  | JsValue.bool b => b
  | JsValue.num q => decide (q ≠ 0)
  | JsValue.str s => decide (s ≠ [])

/-- Outcome of one `/api/skills-check` request. -/
inductive Outcome where
  | validationError (msg : List Char) : Outcome
  | report (totalResumes eligibleCount : Nat) (results : List ResumeResultJS) : Outcome
deriving DecidableEq, Repr

/-- The `/api/skills-check` handler (src/server/index.js lines 171-212),
after file upload: `files` carries, per uploaded file, the pdf-rendered
full text (the external `pdf(buffer)` output) and the original file name;
`skills` is `req.body.skills`, `none` when the field is absent.  The
validation checks are `files.length === 0` and the JavaScript falsiness
test `!skills` (true exactly for an absent or empty-string field).
`none` models non-termination of the analysis. -/
def skillsCheck (genAI : Bool) (judge : Nat → Option JudgeParsed)
    (files : List (List Char × List Char)) (skills : Option (List Char)) :
    Option Outcome :=
  if files.length = 0 then
    some (Outcome.validationError "No resume files uploaded".data)
  else
    match skills with
    | none => some (Outcome.validationError "Required skills not provided".data)
    | some sk =>
      if sk = [] then some (Outcome.validationError "Required skills not provided".data)
      else
        let resumeTexts := files.map fun f => mkStructuredText f.1
        let fileNames := files.map fun f => f.2
        match analyzeSkillsWithAI genAI judge resumeTexts sk fileNames with
        | none => none
        | some results =>
          some (Outcome.report files.length
            (results.filter fun r => r.eligible.truthy).length results)

/-! ### Basic facts about the embedded operations -/

theorem toLowerStr_length (s : List Char) : (toLowerStr s).length = s.length := by
  simp [toLowerStr]

theorem findFromFuel_some {s pat : List Char} :
    ∀ {fuel i p}, findFromFuel s pat fuel i = some p →
      i ≤ p ∧ p + pat.length ≤ s.length := by
  intro fuel
  induction fuel with
  | zero => intro i p h; cases h
  | succ n ih =>
    intro i p h
    rw [findFromFuel] at h
    by_cases hle : i + pat.length ≤ s.length
    · rw [if_pos hle] at h
      by_cases hpre : pat.isPrefixOf (s.drop i) = true
      · rw [if_pos hpre] at h
        cases h
        exact ⟨Nat.le_refl _, hle⟩
      · rw [if_neg hpre] at h
        exact ⟨Nat.le_of_succ_le (ih h).1, (ih h).2⟩
    · rw [if_neg hle] at h
      cases h

theorem findFrom_some {s pat : List Char} {i p : Nat}
    (h : findFrom s pat i = some p) : i ≤ p ∧ p + pat.length ≤ s.length :=
  findFromFuel_some h

theorem jsIndexOf_some {s pat : List Char} {start p : Nat}
    (h : jsIndexOf s pat start = some p) :
    min start s.length ≤ p ∧ p + pat.length ≤ s.length :=
  findFrom_some h

theorem findFrom_nil_pat (s : List Char) (i : Nat) (hi : i ≤ s.length) :
    findFrom s [] i = some i := by
  rw [findFrom, show s.length + 1 - i = (s.length - i) + 1 by omega, findFromFuel]
  have hpre : List.isPrefixOf ([] : List Char) (s.drop i) = true := by
    cases s.drop i <;> rfl
  rw [if_pos (by simpa using hi), if_pos hpre]

theorem jsIndexOf_nil_pat (s : List Char) (start : Nat) :
    jsIndexOf s [] start = some (min start s.length) :=
  findFrom_nil_pat s _ (Nat.min_le_right _ _)

/-- With the empty skill string, the source's scanning loop never exits:
`indexOf('')` always succeeds and the scan position never advances, so the
loop runs out of any finite fuel. -/
theorem scanLineLoop_nil_skill (content : List Char) (ln pg : Nat) :
    ∀ fuel start acc, scanLineLoop content ln pg [] fuel start acc = none := by
  intro fuel
  induction fuel with
  | zero => intro start acc; rfl
  | succ n ih =>
    intro start acc
    rw [scanLineLoop, jsIndexOf_nil_pat]
    exact ih _ _

theorem scanLinePos_nil_skill (content : List Char) :
    ∀ fuel start, scanLinePos content [] fuel start = none := by
  intro fuel
  induction fuel with
  | zero => intro start; rfl
  | succ n ih =>
    intro start
    rw [scanLinePos, jsIndexOf_nil_pat]
    simp [ih]

/-- The scanning loop produces exactly the occurrence records of the
positions collected by its instrumented variant, appended to the
accumulator. -/
theorem scanLineLoop_eq_pos (content sl : List Char) (ln pg : Nat) :
    ∀ fuel start acc, scanLineLoop content ln pg sl fuel start acc =
      (scanLinePos content sl fuel start).map
        (fun ps => acc ++ ps.map (mkOcc content sl ln pg)) := by
  intro fuel
  induction fuel with
  | zero => intro start acc; rfl
  | succ n ih =>
    intro start acc
    cases h : jsIndexOf (toLowerStr content) sl start with
    | none => simp [scanLineLoop, scanLinePos, h]
    | some p =>
      simp only [scanLineLoop, scanLinePos, h]
      rw [ih]
      cases hrec : scanLinePos content sl n (p + sl.length) with
      | none => simp [hrec]
      | some ps => simp [hrec, mkOcc]

/-- Positions collected by the instrumented scan: every position lies at or
after the scan start and leaves room for the skill inside the line. -/
theorem scanLinePos_mem_bounds (content sl : List Char) :
    ∀ fuel start ps, scanLinePos content sl fuel start = some ps →
      ∀ p ∈ ps, min start content.length ≤ p ∧ p + sl.length ≤ content.length := by
  intro fuel
  induction fuel with
  | zero => intro start ps h; cases h
  | succ n ih =>
    intro start ps h p hp
    cases hidx : jsIndexOf (toLowerStr content) sl start with
    | none =>
      simp only [scanLinePos, hidx] at h
      cases h
      cases hp
    | some q =>
      simp only [scanLinePos, hidx] at h
      have hq := jsIndexOf_some hidx
      rw [toLowerStr_length] at hq
      cases hrec : scanLinePos content sl n (q + sl.length) with
      | none => rw [hrec] at h; cases h
      | some ps' =>
        rw [hrec] at h
        cases h
        rcases List.mem_cons.mp hp with rfl | hp'
        · exact ⟨hq.1, hq.2⟩
        · have := ih _ _ hrec p hp'
          refine ⟨?_, this.2⟩
          have h1 : min start content.length ≤ min (q + sl.length) content.length := by
            have : min start content.length ≤ q + sl.length :=
              Nat.le_trans hq.1 (Nat.le_add_right _ _)
            exact Nat.le_min.mpr ⟨this, Nat.min_le_right _ _⟩
          exact Nat.le_trans h1 this.1

/-- Consecutive positions of the instrumented scan are at least
`skill.length` apart: the scan resumes at `p + len(skill)`. -/
theorem scanLinePos_chain (content sl : List Char) :
    ∀ fuel start ps, scanLinePos content sl fuel start = some ps →
      List.Chain' (fun p q => p + sl.length ≤ q) ps := by
  intro fuel
  induction fuel with
  | zero => intro start ps h; cases h
  | succ n ih =>
    intro start ps h
    cases hidx : jsIndexOf (toLowerStr content) sl start with
    | none =>
      simp only [scanLinePos, hidx] at h
      cases h
      exact List.chain'_nil
    | some q =>
      simp only [scanLinePos, hidx] at h
      cases hrec : scanLinePos content sl n (q + sl.length) with
      | none => rw [hrec] at h; cases h
      | some ps' =>
        rw [hrec] at h
        cases h
        refine List.chain'_cons'.mpr ⟨?_, ih _ _ hrec⟩
        intro r hr
        cases ps' with
        | nil => cases hr
        | cons r0 rest =>
          rw [List.head?_cons, Option.mem_some_iff] at hr
          have hb := scanLinePos_mem_bounds content sl n (q + sl.length) _ hrec r0
            (List.mem_cons_self r0 rest)
          have hq := jsIndexOf_some hidx
          rw [toLowerStr_length] at hq
          have hmin : min (q + sl.length) content.length = q + sl.length :=
            Nat.min_eq_left hq.2
          rw [hmin] at hb
          exact hr ▸ hb.1

/-- Every occurrence returned by the Locator comes from one of the input
lines, at a match position collected by the instrumented scan of that line. -/
theorem findLines_mem (sl : List Char) :
    ∀ lines occs, findLines sl lines = some occs →
      ∀ occ ∈ occs, ∃ line ∈ lines, ∃ ps p,
        scanLinePos line.content sl (line.content.length + 1) 0 = some ps ∧
        p ∈ ps ∧ occ = mkOcc line.content sl line.lineNumber line.estimatedPage p := by
  intro lines
  induction lines with
  | nil => intro occs h occ hocc; cases h; cases hocc
  | cons line rest ih =>
    intro occs h occ hocc
    rw [findLines] at h
    rw [scanLineLoop_eq_pos] at h
    cases hpos : scanLinePos line.content sl (line.content.length + 1) 0 with
    | none => rw [hpos] at h; cases h
    | some ps =>
      rw [hpos] at h
      simp only [Option.map_some, List.nil_append] at h
      cases hrest : findLines sl rest with
      | none => rw [hrest] at h; cases h
      | some more =>
        rw [hrest] at h
        cases h
        rcases List.mem_append.mp hocc with hmem | hmem
        · rcases List.mem_map.mp hmem with ⟨p, hp, hocc'⟩
          exact ⟨line, List.mem_cons_self line rest, ps, p, hpos, hp, hocc'.symm⟩
        · rcases ih more hrest occ hmem with ⟨l, hl, ps', p, h1, h2, h3⟩
          exact ⟨l, List.mem_cons_of_mem line hl, ps', p, h1, h2, h3⟩

theorem mapIdxOption_mem {α β : Type} {f : Nat → α → Option β} :
    ∀ i as bs, mapIdxOption f i as = some bs →
      ∀ b ∈ bs, ∃ j a, f j a = some b := by
  intro i as
  induction as generalizing i with
  | nil => intro bs h b hb; cases h; cases hb
  | cons a rest ih =>
    intro bs h b hb
    rw [mapIdxOption] at h
    cases hf : f i a with
    | none => rw [hf] at h; cases h
    | some b0 =>
      rw [hf] at h
      cases hrec : mapIdxOption f (i + 1) rest with
      | none => rw [hrec] at h; cases h
      | some bs' =>
        rw [hrec] at h
        cases h
        rcases List.mem_cons.mp hb with rfl | hb'
        · exact ⟨i, a, hf⟩
        · exact ih (i + 1) bs' hrec b hb'

theorem mapIdxOption_get {α β : Type} {f : Nat → α → Option β} :
    ∀ i as bs, mapIdxOption f i as = some bs →
      bs.length = as.length ∧
      ∀ j (hj : j < as.length) (hj' : j < bs.length),
        f (i + j) (as.get ⟨j, hj⟩) = some (bs.get ⟨j, hj'⟩) := by
  intro i as
  induction as generalizing i with
  | nil =>
    intro bs h
    cases h
    exact ⟨rfl, fun j hj _ => absurd hj (Nat.not_lt_zero j)⟩
  | cons a rest ih =>
    intro bs h
    rw [mapIdxOption] at h
    cases hf : f i a with
    | none => rw [hf] at h; cases h
    | some b0 =>
      rw [hf] at h
      cases hrec : mapIdxOption f (i + 1) rest with
      | none => rw [hrec] at h; cases h
      | some bs' =>
        rw [hrec] at h
        cases h
        rcases ih (i + 1) bs' hrec with ⟨hlen, hget⟩
        refine ⟨by simp [hlen], ?_⟩
        intro j hj hj'
        cases j with
        | zero => exact hf
        | succ k =>
          have hk : k < rest.length := Nat.lt_of_succ_lt_succ hj
          have hk' : k < bs'.length := Nat.lt_of_succ_lt_succ hj'
          have harith : (i + 1) + k = i + (k + 1) := by omega
          have hgk := hget k hk hk'
          rw [harith] at hgk
          exact hgk

/-- Each requested skill lands in exactly one of `matched` / `missing`. -/
theorem collectMatches_partition (t : StructuredText) :
    ∀ sa matched missing, collectMatches t sa = some (matched, missing) →
      matched.length + missing.length = sa.length := by
  intro sa
  induction sa with
  | nil => intro matched missing h; cases h; rfl
  | cons skill rest ih =>
    intro matched missing h
    cases hf : findSkillOccurrences t skill with
    | none =>
      simp only [collectMatches, hf] at h
      exact Option.noConfusion h
    | some occurrences =>
      cases hrec : collectMatches t rest with
      | none =>
        simp only [collectMatches, hf, hrec] at h
        exact Option.noConfusion h
      | some mm =>
        obtain ⟨ms, mi⟩ := mm
        simp only [collectMatches, hf, hrec] at h
        by_cases hocc : occurrences.length > 0
        · rw [if_pos hocc] at h
          cases h
          have hih := ih _ _ hrec
          simp only [List.length_cons] at hih ⊢
          omega
        · rw [if_neg hocc] at h
          cases h
          have hih := ih _ _ hrec
          simp only [List.length_cons] at hih ⊢
          omega

/-- Inversion for `scoreOne`: the produced record's fields in terms of the
collected matches. -/
theorem scoreOne_some {sa : List (List Char)} {t : StructuredText} {index : Nat}
    {name : List Char} {r : ResumeResult} (h : scoreOne sa t index name = some r) :
    ∃ matched missing, collectMatches t sa = some (matched, missing) ∧
      r = { fileName := if name = [] then defaultFileName index else name
            eligible := decide ((60 : ℤ) ≤ jsRound (((matched.length : ℚ) / (sa.length : ℚ)) * 100))
            matchPercentage := jsRound (((matched.length : ℚ) / (sa.length : ℚ)) * 100)
            matched := matched
            missing := missing
            summary := summaryStr matched.length sa.length
            totalLines := t.totalLines
            estimatedPages := t.estimatedPages } := by
  cases hc : collectMatches t sa with
  | none =>
    simp only [scoreOne, hc] at h
    exact Option.noConfusion h
  | some mm =>
    obtain ⟨ms, mi⟩ := mm
    simp only [scoreOne, hc] at h
    cases h
    exact ⟨ms, mi, rfl, rfl⟩

/-- The JavaScript expression `Math.round((m / n) * 100)` computed on exact
values equals the integer-arithmetic round-half-up `(200*m + n) / (2*n)`. -/
theorem jsRound_ratio (m n : Nat) (hn : n ≠ 0) :
    jsRound (((m : ℚ) / (n : ℚ)) * 100) = ((200 * m + n) / (2 * n) : ℕ) := by
  have hnq : (n : ℚ) ≠ 0 := Nat.cast_ne_zero.mpr hn
  have hq : ((m : ℚ) / (n : ℚ)) * 100 + 1 / 2 =
      (((200 * m + n : ℕ) : ℤ) : ℚ) / ((2 * n : ℕ) : ℚ) := by
    push_cast
    field_simp
    ring
  rw [jsRound, hq, Rat.floor_intCast_div_natCast]
  exact (Int.natCast_ediv _ _).symm

/-- `split` always returns at least one element, so the skill list of
`analyzeSkills` is never empty. -/
theorem splitOnChar_ne_nil (sep : Char) : ∀ l, splitOnChar sep l ≠ [] := by
  intro l
  cases l with
  | nil => simp [splitOnChar]
  | cons c cs =>
    by_cases h : c = sep
    · simp [splitOnChar, h]
    · rw [splitOnChar, if_neg h]
      cases splitOnChar sep cs <;> simp

theorem splitTrim_length_pos (requiredSkills : List Char) :
    0 < (splitTrim requiredSkills).length := by
  rw [splitTrim, List.length_map]
  exact List.length_pos.mpr (splitOnChar_ne_nil ',' requiredSkills)

/-- The per-resume body does not depend on the resume's index when the
supplied file name is non-empty (the index only feeds the default name). -/
theorem scoreOne_index_irrel (sa : List (List Char)) (t : StructuredText)
    (i j : Nat) (name : List Char) (hname : name ≠ []) :
    scoreOne sa t i name = scoreOne sa t j name := by
  rw [scoreOne, scoreOne]
  cases collectMatches t sa with
  | none => rfl
  | some mm => simp [hname]

/-- The enhanced loop, on a batch whose deterministic analysis succeeds and
whose file names are all present and non-empty, produces exactly the
deterministic results with the judge's parsed replies spread on top where
the judge call succeeded. -/
theorem aiLoop_applyJudge (judge : Nat → Option JudgeParsed)
    (requiredSkills : List Char) (fileNames : List (List Char)) :
    ∀ texts i ds,
      mapIdxOption
        (fun index textData =>
          scoreOne (splitTrim requiredSkills) textData index (fileNames.getD index []))
        i texts = some ds →
      (∀ j, i ≤ j → j < i + texts.length → fileNames.getD j [] ≠ []) →
      aiLoop judge requiredSkills fileNames i texts = some (applyJudge judge i ds) := by
  intro texts
  induction texts with
  | nil =>
    intro i ds h _
    cases h
    rfl
  | cons t rest ih =>
    intro i ds h hnames
    have hnamei : fileNames.getD i [] ≠ [] :=
      hnames i (Nat.le_refl i) (by simp)
    cases hs : scoreOne (splitTrim requiredSkills) t i (fileNames.getD i []) with
    | none =>
      simp only [mapIdxOption, hs] at h
      exact Option.noConfusion h
    | some d =>
      cases hrec : mapIdxOption
          (fun index textData =>
            scoreOne (splitTrim requiredSkills) textData index (fileNames.getD index []))
          (i + 1) rest with
      | none =>
        simp only [mapIdxOption, hs, hrec] at h
        exact Option.noConfusion h
      | some ds' =>
        simp only [mapIdxOption, hs, hrec] at h
        cases h
        have hzero : scoreOne (splitTrim requiredSkills) t 0 (fileNames.getD i []) = some d := by
          rw [scoreOne_index_irrel _ _ 0 i _ hnamei]
          exact hs
        have hone : analyzeSkills [t] requiredSkills [fileNames.getD i []] = some [d] := by
          simp only [analyzeSkills, mapIdxOption, List.getD_cons_zero, hzero]
        have hnames' : ∀ j, i + 1 ≤ j → j < (i + 1) + rest.length →
            fileNames.getD j [] ≠ [] := by
          intro j h1 h2
          exact hnames j (by omega) (by simp only [List.length_cons]; omega)
        rw [aiLoop, hone]
        simp only [ih (i + 1) ds' hrec hnames', applyJudge]

/-- Splitting a list at `take`/`drop` positions `a ≤ b`: the middle part is
`(drop a).take (b - a)`. -/
theorem take_drop_decomposition {α : Type} (c : List α) (a b : Nat) (hab : a ≤ b) :
    c = c.take a ++ ((c.drop a).take (b - a)) ++ c.drop b := by
  have h2 : (c.drop a).drop (b - a) = c.drop b := by
    rw [List.drop_drop]
    congr 1
    omega
  calc c = c.take a ++ c.drop a := (List.take_append_drop a c).symm
    _ = c.take a ++ ((c.drop a).take (b - a) ++ ((c.drop a).drop (b - a))) := by
        rw [List.take_append_drop (b - a) (c.drop a)]
    _ = c.take a ++ ((c.drop a).take (b - a) ++ c.drop b) := by rw [h2]
    _ = c.take a ++ ((c.drop a).take (b - a)) ++ c.drop b := by rw [List.append_assoc]

/-! ### Concrete inputs used by witnesses and counterexamples -/

/-- Fallback record used only as the default of `List.getD`. -/
def fallbackResult : ResumeResult :=
  { fileName := [], eligible := false, matchPercentage := 0, matched := [],
    missing := [], summary := [], totalLines := 0, estimatedPages := 0 }

def exampleName : List Char := "resume1.pdf".data

def exBoundaryText : StructuredText := mkStructuredText "a b c".data

def exBoundarySkills : List Char := "a,b,c,d,e".data

def exBoundaryRes : List ResumeResult :=
  (analyzeSkills [exBoundaryText] exBoundarySkills [exampleName]).getD []

def exBoundaryR : ResumeResult := exBoundaryRes.getD 0 fallbackResult

def exDupText : StructuredText := mkStructuredText "go developer".data

def exDupSkills : List Char := "go,go,rust".data

def exDupRes : List ResumeResult :=
  (analyzeSkills [exDupText] exDupSkills [exampleName]).getD []

def exDupR : ResumeResult := exDupRes.getD 0 fallbackResult

def exNoNameRes : List ResumeResult :=
  (analyzeSkills [exDupText] exDupSkills []).getD []

/-- A judge whose reply parses as an object with none of the expected
fields (for example the reply text `{}`): every property read yields
`undefined`. -/
def judgeEmptyReply : Nat → Option JudgeParsed := fun _ =>
  some { overall_score := JsValue.undef, eligible := JsValue.undef,
         summary := JsValue.undef }

/-- A judge that throws for the first resume and answers well-formed
verdicts for the others. -/
def judgeFailFirst : Nat → Option JudgeParsed := fun i =>
  if i = 0 then none
  else some { overall_score := JsValue.num 85, eligible := JsValue.bool true,
              summary := JsValue.str "good fit".data }

def exBatchTexts : List StructuredText :=
  [mkStructuredText "python and sql".data, mkStructuredText "java".data]

def exBatchNames : List (List Char) := ["a.pdf".data, "b.pdf".data]

def exBatchSkills : List Char := "python,java".data

def exBatchDet : List ResumeResult :=
  (analyzeSkills exBatchTexts exBatchSkills exBatchNames).getD []

/-! ### Claims -/

/-- C1: the specification says `find` is total for every skill string and
that an empty-string skill simply never matches, returning an empty
sequence.  The code is wrong: `indexOf('')` never returns `-1` and the
scan position advances by `0`, so the `while` loop of
`findSkillOccurrences` never terminates on any line whenever the skill is
the empty string (as produced by a trailing/double comma).  The first
conjunct shows the loop survives any amount of fuel without exiting; the
second evaluates the Locator at a concrete one-line document. -/
theorem locator_empty_skill_divergence :
    (∀ content ln pg fuel start acc,
        scanLineLoop content ln pg [] fuel start acc = none) ∧
    findSkillOccurrences (mkStructuredText "python developer".data) [] = none := by
  exact ⟨fun content ln pg fuel start acc =>
    scanLineLoop_nil_skill content ln pg fuel start acc, rfl⟩

/-- C2 counterexample: a judge reply that parses but carries none of the
expected fields (reply text `{}`) does not make the resume fall back to
its deterministic result — the `undefined` field reads are spread onto the
result unchecked. -/
theorem enhanced_parsed_reply_not_fallback :
    analyzeSkillsWithAI true judgeEmptyReply [exBoundaryText] exBoundarySkills
      [exampleName] ≠
    (analyzeSkills [exBoundaryText] exBoundarySkills [exampleName]).map
      (List.map ResumeResult.toJS) := by
  decide

/-- C2 (amended): in the Enhanced Scorer, when the judge's call or the
parsing of its reply throws for resume i, that resume's result is exactly
the Deterministic Scorer's result, and every other resume is unaffected;
when the reply parses, its `overall_score`/`eligible`/`summary` property
reads are spread onto that resume's deterministic result as-is, even when
missing or malformed (no validation, hence no fallback).  Stated for
batches whose file names are supplied and non-empty (the auxiliary
deterministic pass inside the enhanced path numbers every resume as index
0, so an absent name would get a different default). -/
theorem enhanced_fallback_characterization (judge : Nat → Option JudgeParsed)
    (resumeTexts : List StructuredText) (requiredSkills : List Char)
    (fileNames : List (List Char)) (ds : List ResumeResult)
    (hdet : analyzeSkills resumeTexts requiredSkills fileNames = some ds)
    (hnames : ∀ j, j < resumeTexts.length → fileNames.getD j [] ≠ []) :
    analyzeSkillsWithAI true judge resumeTexts requiredSkills fileNames =
      some (applyJudge judge 0 ds) := by
  have hdet' : mapIdxOption
      (fun index textData =>
        scoreOne (splitTrim requiredSkills) textData index (fileNames.getD index []))
      0 resumeTexts = some ds := by
    simpa only [analyzeSkills] using hdet
  have h := aiLoop_applyJudge judge requiredSkills fileNames resumeTexts 0 ds hdet'
    (fun j _ hj => hnames j (by simpa using hj))
  simpa only [analyzeSkillsWithAI, if_pos] using h

theorem enhanced_fallback_characterization_witness :
    analyzeSkillsWithAI true judgeFailFirst exBatchTexts exBatchSkills exBatchNames =
      some (applyJudge judgeFailFirst 0 exBatchDet) :=
  enhanced_fallback_characterization judgeFailFirst exBatchTexts exBatchSkills
    exBatchNames exBatchDet (by rfl) (by decide)

/-- C3 counterexample: a whitespace-only skills string is truthy in
JavaScript, so `!skills` does not reject it; with one uploaded document
the request then reaches the scorer with the single trimmed skill `""`
and diverges in the empty-skill scan — no `ValidationError` is produced
for blank (whitespace-only) skills. -/
theorem blank_skills_not_rejected :
    skillsCheck false (fun _ => none) [("hello".data, "r.pdf".data)]
      (some " ".data) = none := by
  rfl

/-- C3 (amended): the Batch Orchestrator fails with a `ValidationError`
exactly when the documents sequence is empty or the required-skills field
is absent or the empty string; a whitespace-only (blank but non-empty)
skills string passes validation. -/
theorem validation_error_characterization (genAI : Bool)
    (judge : Nat → Option JudgeParsed) (files : List (List Char × List Char))
    (skills : Option (List Char)) :
    (∃ msg, skillsCheck genAI judge files skills = some (Outcome.validationError msg)) ↔
      files = [] ∨ skills = none ∨ skills = some [] := by
  constructor
  · rintro ⟨msg, hm⟩
    simp only [skillsCheck] at hm
    split at hm
    · next hf => exact Or.inl (List.length_eq_zero.mp hf)
    · next hf =>
      cases skills with
      | none => exact Or.inr (Or.inl rfl)
      | some sk =>
        by_cases hsk : sk = []
        · exact Or.inr (Or.inr (by rw [hsk]))
        · exfalso
          simp only [if_neg hsk] at hm
          split at hm
          · exact Option.noConfusion hm
          · simp at hm
  · intro h
    rcases h with h | h | h
    · subst h
      exact ⟨"No resume files uploaded".data, rfl⟩
    · subst h
      by_cases hf : files.length = 0
      · exact ⟨"No resume files uploaded".data, by simp only [skillsCheck, if_pos hf]⟩
      · exact ⟨"Required skills not provided".data,
          by simp only [skillsCheck, if_neg hf]⟩
    · subst h
      by_cases hf : files.length = 0
      · exact ⟨"No resume files uploaded".data, by simp only [skillsCheck, if_pos hf]⟩
      · exact ⟨"Required skills not provided".data,
          by simp only [skillsCheck, if_neg hf]; rfl⟩

/-- C4: for every skill list produced by the Deterministic Scorer (the
split of `requiredSkills` is always non-empty) and every batch, each
result's `matchPercentage` equals the round-half-up of
`100 * matched.length / skillList.length` — written here in exact integer
arithmetic as `(200*m + n) / (2*n)` — and `eligible == (matchPercentage >= 60)`
exactly at the boundary: 59 is not eligible and 60 is eligible. -/
theorem det_score_formula (resumeTexts : List StructuredText)
    (requiredSkills : List Char) (fileNames : List (List Char))
    (ds : List ResumeResult)
    (h : analyzeSkills resumeTexts requiredSkills fileNames = some ds)
    (r : ResumeResult) (hr : r ∈ ds) :
    r.matchPercentage =
      (((200 * r.matched.length + (splitTrim requiredSkills).length) /
        (2 * (splitTrim requiredSkills).length) : ℕ) : ℤ) ∧
    (r.eligible = true ↔ (60 : ℤ) ≤ r.matchPercentage) ∧
    (r.matchPercentage = 59 → r.eligible = false) ∧
    (r.matchPercentage = 60 → r.eligible = true) := by
  obtain ⟨j, t, hj⟩ := mapIdxOption_mem 0 resumeTexts ds
    (by simpa only [analyzeSkills] using h) r hr
  rcases scoreOne_some hj with ⟨ms, mi, hc, hrec⟩
  have hn : (splitTrim requiredSkills).length ≠ 0 :=
    Nat.pos_iff_ne_zero.mp (splitTrim_length_pos requiredSkills)
  have hmr : r.matched = ms := by rw [hrec]
  have hMp : r.matchPercentage =
      jsRound (((ms.length : ℚ) / ((splitTrim requiredSkills).length : ℚ)) * 100) := by
    rw [hrec]
  have hElig : r.eligible = decide ((60 : ℤ) ≤ r.matchPercentage) := by
    rw [hrec]
  refine ⟨?_, ?_, ?_, ?_⟩
  · rw [hMp, hmr]
    exact jsRound_ratio ms.length _ hn
  · rw [hElig]
    exact decide_eq_true_iff
  · intro h59
    rw [hElig, h59]
    decide
  · intro h60
    rw [hElig, h60]
    decide

theorem det_score_formula_witness :
    exBoundaryR.matchPercentage =
      (((200 * exBoundaryR.matched.length + (splitTrim exBoundarySkills).length) /
        (2 * (splitTrim exBoundarySkills).length) : ℕ) : ℤ) ∧
    (exBoundaryR.eligible = true ↔ (60 : ℤ) ≤ exBoundaryR.matchPercentage) ∧
    (exBoundaryR.matchPercentage = 59 → exBoundaryR.eligible = false) ∧
    (exBoundaryR.matchPercentage = 60 → exBoundaryR.eligible = true) :=
  det_score_formula [exBoundaryText] exBoundarySkills [exampleName] exBoundaryRes
    (by rfl) exBoundaryR (List.mem_cons_self _ _)

/-- C5: for every batch, each result of the Deterministic Scorer partitions
the requested skills exactly — `matched.length + missing.length` equals the
number of requested skills, duplicates being counted once per appearance
(the skill list is a plain split of the request, without deduplication). -/
theorem det_partition (resumeTexts : List StructuredText)
    (requiredSkills : List Char) (fileNames : List (List Char))
    (ds : List ResumeResult)
    (h : analyzeSkills resumeTexts requiredSkills fileNames = some ds)
    (r : ResumeResult) (hr : r ∈ ds) :
    r.matched.length + r.missing.length = (splitTrim requiredSkills).length := by
  obtain ⟨j, t, hj⟩ := mapIdxOption_mem 0 resumeTexts ds
    (by simpa only [analyzeSkills] using h) r hr
  rcases scoreOne_some hj with ⟨ms, mi, hc, hrec⟩
  have hmr : r.matched = ms := by rw [hrec]
  have hmi : r.missing = mi := by rw [hrec]
  rw [hmr, hmi]
  exact collectMatches_partition t _ ms mi hc

theorem det_partition_witness :
    exDupR.matched.length + exDupR.missing.length = (splitTrim exDupSkills).length :=
  det_partition [exDupText] exDupSkills [exampleName] exDupRes (by rfl)
    exDupR (List.mem_cons_self _ _)

/-- C6: within a line, once a match is recorded at position `p` the scan
resumes at `p + len(skill)`: the match positions of any scan form a chain
with gaps of at least the skill length (no overlaps), while adjacent
non-overlapping repeats are each counted — searching for "aa" in the line
"aaaa" yields exactly 2 occurrences, at positions 0 and 2, not 3.  The
second conjunct ties the positions to the occurrence records the loop
actually builds. -/
theorem locator_overlap_policy (content skillLower : List Char)
    (ln pg fuel start : Nat) (ps : List Nat)
    (h : scanLinePos content skillLower fuel start = some ps) :
    List.Chain' (fun p q => p + skillLower.length ≤ q) ps ∧
    scanLineLoop content ln pg skillLower fuel start [] =
      some (ps.map (mkOcc content skillLower ln pg)) ∧
    scanLinePos ("aaaa".data) ("aa".data) 5 0 = some [0, 2] ∧
    (findSkillOccurrences (mkStructuredText "aaaa".data) ("aa".data)).map
      List.length = some 2 := by
  refine ⟨scanLinePos_chain content skillLower fuel start ps h, ?_, rfl, rfl⟩
  rw [scanLineLoop_eq_pos, h]
  simp

theorem locator_overlap_policy_witness :
    List.Chain' (fun p q => p + ("aa".data).length ≤ q) [0, 2] ∧
    scanLineLoop ("aaaa".data) 1 1 ("aa".data) 5 0 [] =
      some ([0, 2].map (mkOcc ("aaaa".data) ("aa".data) 1 1)) ∧
    scanLinePos ("aaaa".data) ("aa".data) 5 0 = some [0, 2] ∧
    (findSkillOccurrences (mkStructuredText "aaaa".data) ("aa".data)).map
      List.length = some 2 :=
  locator_overlap_policy ("aaaa".data) ("aa".data) 1 1 5 0 [0, 2] (by rfl)

/-- C7: every occurrence returned by the Locator carries the line number and
page of the line it was found in, and its context is a contiguous substring
of that line's content reaching at most 30 characters before the match
start and at most 30 characters past the match end, clipped at the line's
start and end — it never crosses line boundaries and never includes
out-of-range characters (the line splits as prefix ++ context ++ suffix). -/
theorem locator_context_clipped (textData : StructuredText) (skill : List Char)
    (occs : List Occurrence) (h : findSkillOccurrences textData skill = some occs)
    (occ : Occurrence) (hocc : occ ∈ occs) :
    ∃ line, line ∈ textData.lines ∧ occ.lineNumber = line.lineNumber ∧
      occ.estimatedPage = line.estimatedPage ∧
      ∃ p a b, a ≤ p ∧ p - a ≤ 30 ∧ p + skill.length ≤ b ∧
        b - (p + skill.length) ≤ 30 ∧ b ≤ line.content.length ∧
        occ.context = (line.content.drop a).take (b - a) ∧
        line.content = line.content.take a ++ occ.context ++ line.content.drop b := by
  obtain ⟨line, hline, ps, p, hpos, hp, heq⟩ :=
    findLines_mem (toLowerStr skill) textData.lines occs h occ hocc
  have hb := scanLinePos_mem_bounds line.content (toLowerStr skill)
    (line.content.length + 1) 0 ps hpos p hp
  rw [toLowerStr_length] at hb
  have hpl : p + skill.length ≤ line.content.length := hb.2
  have hctx : occ.context =
      (line.content.drop (p - 30)).take
        (min line.content.length (p + skill.length + 30) - (p - 30)) := by
    rw [heq]
    simp [mkOcc, toLowerStr_length]
  refine ⟨line, hline, by rw [heq]; rfl, by rw [heq]; rfl,
    p, p - 30, min line.content.length (p + skill.length + 30),
    Nat.sub_le p 30, by omega, Nat.le_min.mpr ⟨hpl, by omega⟩, ?_,
    Nat.min_le_left _ _, hctx, ?_⟩
  · have := Nat.min_le_right line.content.length (p + skill.length + 30)
    omega
  · rw [hctx]
    exact take_drop_decomposition line.content (p - 30)
      (min line.content.length (p + skill.length + 30))
      (by have := Nat.le_min.mpr ⟨hpl, (by omega : p + skill.length ≤ p + skill.length + 30)⟩; omega)

def exCtxText : StructuredText := mkStructuredText "a python developer".data

def exCtxOccs : List Occurrence :=
  (findSkillOccurrences exCtxText ("python".data)).getD []

def exCtxOcc : Occurrence := exCtxOccs.getD 0 { lineNumber := 0, estimatedPage := 0, context := [] }

theorem locator_context_clipped_witness :
    ∃ line, line ∈ exCtxText.lines ∧ exCtxOcc.lineNumber = line.lineNumber ∧
      exCtxOcc.estimatedPage = line.estimatedPage ∧
      ∃ p a b, a ≤ p ∧ p - a ≤ 30 ∧ p + ("python".data).length ≤ b ∧
        b - (p + ("python".data).length) ≤ 30 ∧ b ≤ line.content.length ∧
        exCtxOcc.context = (line.content.drop a).take (b - a) ∧
        line.content = line.content.take a ++ exCtxOcc.context ++ line.content.drop b :=
  locator_context_clipped exCtxText ("python".data) exCtxOccs (by rfl)
    exCtxOcc (List.mem_cons_self _ _)

/-- C8: the Locator is case-insensitive — two skill strings with the same
lower-casing produce identical occurrence sequences over any structured
text, since the scan only ever consults the lower-cased skill (and its
length, which lower-casing preserves per character). -/
theorem locator_case_insensitive (textData : StructuredText) (s1 s2 : List Char)
    (h : toLowerStr s1 = toLowerStr s2) :
    findSkillOccurrences textData s1 = findSkillOccurrences textData s2 := by
  rw [findSkillOccurrences, findSkillOccurrences, h]

theorem locator_case_insensitive_witness :
    toLowerStr ("Python".data) = toLowerStr ("python".data) ∧
    findSkillOccurrences (mkStructuredText "PYTHON is here".data) ("Python".data) =
      findSkillOccurrences (mkStructuredText "PYTHON is here".data) ("python".data) :=
  ⟨by decide, locator_case_insensitive (mkStructuredText "PYTHON is here".data)
    ("Python".data) ("python".data) (by decide)⟩

/-- C9: when no judge client is configured, the Enhanced Scorer returns for
any batch exactly the Deterministic Scorer's results (the same objects in
the source; here the deterministic records viewed as result objects). -/
theorem enhanced_bypass_without_client (judge : Nat → Option JudgeParsed)
    (resumeTexts : List StructuredText) (requiredSkills : List Char)
    (fileNames : List (List Char)) :
    analyzeSkillsWithAI false judge resumeTexts requiredSkills fileNames =
      (analyzeSkills resumeTexts requiredSkills fileNames).map
        (List.map ResumeResult.toJS) := by
  rfl

/-- C10: in the Deterministic Scorer, a resume at index i whose supplied
file name is absent or the empty string gets the default file name
`Resume ` followed by the 1-based index i+1. -/
theorem det_filename_default (resumeTexts : List StructuredText)
    (requiredSkills : List Char) (fileNames : List (List Char))
    (ds : List ResumeResult)
    (h : analyzeSkills resumeTexts requiredSkills fileNames = some ds)
    (i : Nat) (hi : i < ds.length) (hname : fileNames.getD i [] = []) :
    (ds.getD i fallbackResult).fileName =
      "Resume ".data ++ (Nat.repr (i + 1)).data := by
  have hm := mapIdxOption_get 0 resumeTexts ds (by simpa only [analyzeSkills] using h)
  have hi' : i < resumeTexts.length := hm.1 ▸ hi
  have hgi := hm.2 i hi' hi
  rw [Nat.zero_add] at hgi
  rcases scoreOne_some hgi with ⟨ms, mi, hc, hrec⟩
  rw [List.getD_eq_get ds fallbackResult hi, hrec]
  show (if fileNames.getD i [] = [] then defaultFileName i else fileNames.getD i []) =
    "Resume ".data ++ (Nat.repr (i + 1)).data
  rw [if_pos hname]
  rfl

theorem det_filename_default_witness :
    (exNoNameRes.getD 0 fallbackResult).fileName =
      "Resume ".data ++ (Nat.repr 1).data :=
  det_filename_default [exDupText] exDupSkills [] exNoNameRes (by rfl) 0
    (by decide) (by rfl)

end ResumeAnalyzer
